import Mathlib

/-!
Verification of the weighted-quantile estimator implemented in
`esmvaltool/diag_scripts/weighting/weighted_temperature_graph.py`
(function `weighted_quantile`, lines 28-71).

The Python function is embedded shallowly over `ℚ`:

```
values    = np.array(values)
quantiles = np.array(quantiles)
if weights is None:
    weights = np.ones(len(values))
weights = np.array(weights)

if not np.all((quantiles >= 0) & (quantiles <= 1)):
    raise ValueError('Quantiles should be between 0.0 and 1.0')

idx = np.argsort(values)
values = values[idx]
weights = weights[idx]

weighted_quantiles = np.cumsum(weights) - 0.5 * weights

min_val = weighted_quantiles.min()
max_val = weighted_quantiles.max()
weighted_quantiles = (weighted_quantiles - min_val) / max_val

return np.interp(quantiles, weighted_quantiles, values)
```

Embedding notes:
* `np.argsort(values)` followed by the fancy indexing `values[idx]`, `weights[idx]`
  is embedded as a stable sort of the (value, weight) pairs by value
  (`sortPairs`).  `weights[idx]` raises a numpy `IndexError` exactly when the
  weights array is shorter than `values` (every index `0..len(values)-1` occurs
  in `idx`); a longer weights array is silently truncated to the first
  `len(values)` entries by the indexing.  Both behaviours are reproduced.
* `.min()` / `.max()` on the empty array raise a numpy `ValueError`; this is the
  `QErr.emptyReduce` branch, reachable only for empty `values`.
* Machine floats are modelled as rationals.  Division by zero (numpy: a
  non-signalling `NaN`) is the `Rat` convention `x / 0 = 0`; no theorem below
  about error behaviour depends on the value produced by a zero division, and
  every theorem about returned *values* carries hypotheses that keep the
  divisor (`max_val`) nonzero.
-/

namespace WeightedTemperatureGraph

/-- Exceptions the Python body can raise: the explicit
`ValueError('Quantiles should be between 0.0 and 1.0')`, the numpy `IndexError`
from `weights[idx]` when `weights` is too short, and the numpy `ValueError`
raised by `.min()` on an empty array. -/
inductive QErr where
  | invalidQuantile
  | indexError
  | emptyReduce
deriving DecidableEq, Repr

/-- Comparison of (value, weight) pairs by value, the sort key of
`np.argsort(values)`. -/
def pairLe (a b : ℚ × ℚ) : Prop := a.1 ≤ b.1

instance : DecidableRel pairLe := fun a b => inferInstanceAs (Decidable (a.1 ≤ b.1))

instance : IsTotal (ℚ × ℚ) pairLe := ⟨fun a b => le_total a.1 b.1⟩

instance : IsTrans (ℚ × ℚ) pairLe := ⟨fun _ _ _ h h' => le_trans h h'⟩

/-- Embedding of `idx = np.argsort(values); values = values[idx]; weights = weights[idx]`:
the (value, weight) pairs sorted by value.  (`np.argsort` uses an unstable
quicksort; the embedding fixes the stable tie-break.  No theorem below depends
on the tie-break: ties among equal values only permute equal sort keys.) -/
def sortPairs (values w : List ℚ) : List (ℚ × ℚ) :=
  List.insertionSort pairLe (values.zip w)

/-- Embedding of `values[idx]`: the sample values in ascending order. -/
def sortedValues (values w : List ℚ) : List ℚ :=
  (sortPairs values w).map Prod.fst

/-- Embedding of `weights[idx]`: the weights carried along with the sorted values. -/
def sortedWeights (values w : List ℚ) : List ℚ :=
  (sortPairs values w).map Prod.snd

/-- Running sums with initial accumulator, the workhorse of `np.cumsum`. -/
def cumsumFrom (acc : ℚ) : List ℚ → List ℚ
  | [] => []
  | x :: xs => (acc + x) :: cumsumFrom (acc + x) xs

/-- Embedding of `np.cumsum(weights)`. -/
def cumsum (l : List ℚ) : List ℚ := cumsumFrom 0 l

/-- Embedding of `weighted_quantiles = np.cumsum(weights) - 0.5 * weights`, on the
sorted weights. -/
def positions (values w : List ℚ) : List ℚ :=
  List.zipWith (fun c wi => c - wi / 2)
    (cumsum (sortedWeights values w)) (sortedWeights values w)

/-- The normalization the code performs:
`min_val = arr.min(); max_val = arr.max(); (arr - min_val) / max_val`.
Note `max_val` is read off **before** the subtraction.  The empty case is the
`.min()` ValueError, surfaced separately in `weighted_quantile`. -/
def normalizeWith (pos : List ℚ) : List ℚ :=
  match pos with
  | [] => []
  | p :: ps =>
      (p :: ps).map (fun x => (x - (ps.foldl min p)) / (ps.foldl max p))

/-- The interpolation x-coordinates actually used by the code. -/
def normalizedPositions (values w : List ℚ) : List ℚ :=
  normalizeWith (positions values w)

/-- Reference definition following the spec's words for step 5 (and nothing
in the source): subtract the minimum, then divide by the **post-subtraction**
maximum, `normalized[i] = (position[i] - min(position)) / max(position - min(position))`. -/
def specNormalizeWith (pos : List ℚ) : List ℚ :=
  match pos with
  | [] => []
  | p :: ps =>
      (p :: ps).map (fun x => (x - (ps.foldl min p)) / ((ps.foldl max p) - (ps.foldl min p)))

/-- The interpolation x-coordinates that step 5 of the spec describes. -/
def specNormalizedPositions (values w : List ℚ) : List ℚ :=
  specNormalizeWith (positions values w)

/-- Interpolation loop of `np.interp` past the first node: `a` is the last node
whose x-coordinate is `≤ x` so far; stop at the first node strictly to the
right of `x` and interpolate linearly, clamping to the last node's value when
`x` is to the right of every node. -/
def interpGo (x : ℚ) : List (ℚ × ℚ) → ℚ × ℚ → ℚ
  | [], a => a.2
  | b :: rest, a =>
      if x < b.1 then a.2 + (b.2 - a.2) * (x - a.1) / (b.1 - a.1)
      else interpGo x rest b

/-- Embedding of `np.interp(x, xp, fp)` for one scalar `x`, over the node list
`xp.zip fp` (assumed x-sorted, as numpy does): values left of the first node
clamp to `fp[0]`, values right of the last clamp to `fp[-1]`, and an `x`
matching several tied nodes takes the last of them. -/
def interpList (x : ℚ) : List (ℚ × ℚ) → ℚ
  | [] => 0
  | a :: rest => if x < a.1 then a.2 else interpGo x rest a

/-- Shallow embedding of `weighted_quantile(values, quantiles, weights)`. -/
def weighted_quantile (values quantiles : List ℚ) (weights : Option (List ℚ)) :
    Except QErr (List ℚ) :=
  let w := weights.getD (List.replicate values.length 1)
  if ∀ q ∈ quantiles, 0 ≤ q ∧ q ≤ 1 then
    if w.length < values.length then .error .indexError
    else if values.length = 0 then .error .emptyReduce
    else .ok (quantiles.map (fun q =>
      interpList q ((normalizedPositions values w).zip (sortedValues values w))))
  else .error .invalidQuantile

/-- Minimum of a sample list (`min(S)` of the claims); 0 on the empty list. -/
def listMin : List ℚ → ℚ
  | [] => 0
  | x :: xs => xs.foldl min x

/-- Maximum of a sample list (`max(S)` of the claims); 0 on the empty list. -/
def listMax : List ℚ → ℚ
  | [] => 0
  | x :: xs => xs.foldl max x

/-- Reference definition following the spec's words (and nothing in the
source): the standard linear-interpolation percentile at quantile `q`
(`np.percentile(s, 100*q, interpolation='linear')`), i.e. linear interpolation
of the sorted samples over the x-coordinates `i / (n - 1)`. -/
def linearQuantile (s : List ℚ) (q : ℚ) : ℚ :=
  let sorted := List.insertionSort (fun a b : ℚ => a ≤ b) s
  interpList q
    (((List.range sorted.length).map (fun i => (i : ℚ) / (sorted.length - 1))).zip sorted)

/-- Positions in recursion form: the entry for weight `x` after the prefix sum
`acc` is `acc + x/2`, followed by the positions over accumulator `acc + x`. -/
def posFrom (acc : ℚ) : List ℚ → List ℚ
  | [] => []
  | x :: xs => (acc + x / 2) :: posFrom (acc + x) xs

lemma zipWith_cumsumFrom (acc : ℚ) (ws : List ℚ) :
    List.zipWith (fun c wi => c - wi / 2) (cumsumFrom acc ws) ws = posFrom acc ws := by
  induction ws generalizing acc with
  | nil => rfl
  | cons x xs ih =>
    simp only [cumsumFrom, List.zipWith_cons_cons, posFrom, ih, List.cons.injEq,
      and_true]
    ring

lemma positions_eq_posFrom (values w : List ℚ) :
    positions values w = posFrom 0 (sortedWeights values w) := by
  rw [positions, cumsum, zipWith_cumsumFrom]

lemma posFrom_length (acc : ℚ) (ws : List ℚ) :
    (posFrom acc ws).length = ws.length := by
  induction ws generalizing acc with
  | nil => rfl
  | cons x xs ih => simp [posFrom, ih]

lemma le_of_mem_posFrom {p acc : ℚ} {ws : List ℚ} (hw : ∀ x ∈ ws, 0 ≤ x)
    (hp : p ∈ posFrom acc ws) : acc ≤ p := by
  induction ws generalizing acc with
  | nil => simp [posFrom] at hp
  | cons x xs ih =>
    have hx : 0 ≤ x := hw x (by simp)
    rcases (by simpa [posFrom] using hp : p = acc + x / 2 ∨ p ∈ posFrom (acc + x) xs)
      with h | h
    · rw [h]; linarith
    · have := ih (fun y hy => hw y (by simp [hy])) h
      linarith

lemma posFrom_pairwise (acc : ℚ) (ws : List ℚ) (hw : ∀ x ∈ ws, 0 ≤ x) :
    List.Pairwise (· ≤ ·) (posFrom acc ws) := by
  induction ws generalizing acc with
  | nil => simp [posFrom]
  | cons x xs ih =>
    have hx : 0 ≤ x := hw x (by simp)
    have htail : ∀ y ∈ xs, (0 : ℚ) ≤ y := fun y hy => hw y (by simp [hy])
    rw [posFrom]
    refine List.pairwise_cons.mpr ⟨?_, ih (acc + x) htail⟩
    intro p hp
    have := le_of_mem_posFrom htail hp
    linarith

lemma foldl_min_eq_self (a : ℚ) (l : List ℚ) (h : ∀ x ∈ l, a ≤ x) :
    l.foldl min a = a := by
  induction l generalizing a with
  | nil => rfl
  | cons b t ih =>
    rw [List.foldl_cons, min_eq_left (h b (by simp))]
    exact ih a (fun x hx => h x (by simp [hx]))

lemma le_foldl_max (a : ℚ) (l : List ℚ) : a ≤ l.foldl max a := by
  induction l generalizing a with
  | nil => exact le_refl a
  | cons b t ih =>
    rw [List.foldl_cons]
    exact le_trans (le_max_left a b) (ih (max a b))

lemma le_foldl_max_of_mem {x : ℚ} {l : List ℚ} (a : ℚ) (hx : x ∈ l) :
    x ≤ l.foldl max a := by
  induction l generalizing a with
  | nil => cases hx
  | cons b t ih =>
    rw [List.foldl_cons]
    rcases List.mem_cons.mp hx with rfl | h
    · exact le_trans (le_max_right a x) (le_foldl_max _ t)
    · exact ih _ h

lemma foldl_min_le (a : ℚ) (l : List ℚ) : l.foldl min a ≤ a := by
  induction l generalizing a with
  | nil => exact le_refl a
  | cons b t ih =>
    rw [List.foldl_cons]
    exact le_trans (ih (min a b)) (min_le_left a b)

lemma foldl_min_le_of_mem {x : ℚ} {l : List ℚ} (a : ℚ) (hx : x ∈ l) :
    l.foldl min a ≤ x := by
  induction l generalizing a with
  | nil => cases hx
  | cons b t ih =>
    rw [List.foldl_cons]
    rcases List.mem_cons.mp hx with rfl | h
    · exact le_trans (foldl_min_le _ t) (min_le_right a x)
    · exact ih _ h

lemma foldl_min_mem_or (a : ℚ) (l : List ℚ) :
    l.foldl min a = a ∨ l.foldl min a ∈ l := by
  induction l generalizing a with
  | nil => exact Or.inl rfl
  | cons b t ih =>
    rw [List.foldl_cons]
    rcases ih (min a b) with h | h
    · rcases min_choice a b with hm | hm
      · exact Or.inl (h.trans hm)
      · exact Or.inr (by simp [h.trans hm])
    · exact Or.inr (by simp [h])

lemma foldl_max_mem_or (a : ℚ) (l : List ℚ) :
    l.foldl max a = a ∨ l.foldl max a ∈ l := by
  induction l generalizing a with
  | nil => exact Or.inl rfl
  | cons b t ih =>
    rw [List.foldl_cons]
    rcases ih (max a b) with h | h
    · rcases max_choice a b with hm | hm
      · exact Or.inl (h.trans hm)
      · exact Or.inr (by simp [h.trans hm])
    · exact Or.inr (by simp [h])

lemma listMin_mem {l : List ℚ} (h : l ≠ []) : listMin l ∈ l := by
  cases l with
  | nil => exact absurd rfl h
  | cons x xs =>
    rcases foldl_min_mem_or x xs with h' | h' <;> simp [listMin, h']

lemma listMin_le {x : ℚ} {l : List ℚ} (hx : x ∈ l) : listMin l ≤ x := by
  cases l with
  | nil => cases hx
  | cons b t =>
    rcases List.mem_cons.mp hx with rfl | h
    · exact foldl_min_le _ _
    · exact foldl_min_le_of_mem _ h

lemma listMax_mem {l : List ℚ} (h : l ≠ []) : listMax l ∈ l := by
  cases l with
  | nil => exact absurd rfl h
  | cons x xs =>
    rcases foldl_max_mem_or x xs with h' | h' <;> simp [listMax, h']

lemma le_listMax {x : ℚ} {l : List ℚ} (hx : x ∈ l) : x ≤ listMax l := by
  cases l with
  | nil => cases hx
  | cons b t =>
    rcases List.mem_cons.mp hx with rfl | h
    · exact le_foldl_max _ _
    · exact le_foldl_max_of_mem _ h

lemma sortPairs_perm (values w : List ℚ) : (sortPairs values w).Perm (values.zip w) :=
  List.perm_insertionSort _ _

lemma sortPairs_sorted (values w : List ℚ) :
    List.Pairwise pairLe (sortPairs values w) :=
  List.sorted_insertionSort pairLe _

lemma sortedValues_pairwise (values w : List ℚ) :
    List.Pairwise (· ≤ ·) (sortedValues values w) :=
  List.Pairwise.map _ (fun _ _ h => h) (sortPairs_sorted values w)

lemma mem_of_mem_sortedWeights {values w : List ℚ} {x : ℚ}
    (hx : x ∈ sortedWeights values w) : x ∈ w := by
  obtain ⟨pr, hpr, rfl⟩ := List.mem_map.mp hx
  exact (List.of_mem_zip ((sortPairs_perm values w).subset hpr)).2

lemma mem_of_mem_sortedValues {values w : List ℚ} {x : ℚ}
    (hx : x ∈ sortedValues values w) : x ∈ values := by
  obtain ⟨pr, hpr, rfl⟩ := List.mem_map.mp hx
  exact (List.of_mem_zip ((sortPairs_perm values w).subset hpr)).1

lemma sortedValues_perm (values w : List ℚ) (hlen : values.length ≤ w.length) :
    (sortedValues values w).Perm values := by
  have h1 := (sortPairs_perm values w).map Prod.fst
  rwa [List.map_fst_zip values w hlen] at h1

lemma sortPairs_length (values w : List ℚ) :
    (sortPairs values w).length = min values.length w.length := by
  rw [(sortPairs_perm values w).length_eq, List.length_zip]

lemma positions_length (values w : List ℚ) :
    (positions values w).length = (sortPairs values w).length := by
  rw [positions_eq_posFrom, posFrom_length, sortedWeights, List.length_map]

lemma normalizeWith_length (pos : List ℚ) :
    (normalizeWith pos).length = pos.length := by
  cases pos <;> simp [normalizeWith]

/-- Node order for interpolation: both coordinates nondecreasing. -/
def nodeLe (a b : ℚ × ℚ) : Prop := a.1 ≤ b.1 ∧ a.2 ≤ b.2

lemma interpGo_lb (rest : List (ℚ × ℚ)) (a : ℚ × ℚ) (y : ℚ)
    (hch : List.Chain nodeLe a rest) (hay : a.1 ≤ y) : a.2 ≤ interpGo y rest a := by
  induction rest generalizing a with
  | nil => simp [interpGo]
  | cons b t ih =>
    rcases List.chain_cons.mp hch with ⟨⟨hx, hf⟩, hch'⟩
    rw [interpGo]
    split_ifs with hy
    · have hd : 0 < b.1 - a.1 := by linarith
      have hnum : 0 ≤ (b.2 - a.2) * (y - a.1) := mul_nonneg (by linarith) (by linarith)
      have := div_nonneg hnum (le_of_lt hd)
      linarith
    · exact le_trans hf (ih b hch' (le_of_not_lt hy))

lemma interpGo_mono (rest : List (ℚ × ℚ)) (a : ℚ × ℚ) (x y : ℚ)
    (hch : List.Chain nodeLe a rest) (hax : a.1 ≤ x) (hxy : x ≤ y) :
    interpGo x rest a ≤ interpGo y rest a := by
  induction rest generalizing a with
  | nil => exact le_refl _
  | cons b t ih =>
    rcases List.chain_cons.mp hch with ⟨⟨hx1, hf1⟩, hch'⟩
    rw [interpGo, interpGo]
    by_cases hyb : y < b.1
    · have hxb : x < b.1 := lt_of_le_of_lt hxy hyb
      rw [if_pos hxb, if_pos hyb]
      have hd : 0 < b.1 - a.1 := by linarith
      have hmul : (b.2 - a.2) * (x - a.1) ≤ (b.2 - a.2) * (y - a.1) :=
        mul_le_mul_of_nonneg_left (by linarith) (by linarith)
      have := (div_le_div_iff_of_pos_right hd).mpr hmul
      linarith
    · by_cases hxb : x < b.1
      · rw [if_pos hxb, if_neg hyb]
        have hd : 0 < b.1 - a.1 := by linarith
        have h1 : (b.2 - a.2) * (x - a.1) / (b.1 - a.1) ≤ b.2 - a.2 := by
          rw [div_le_iff₀ hd]
          exact mul_le_mul_of_nonneg_left (by linarith) (by linarith)
        have h2 : b.2 ≤ interpGo y t b := interpGo_lb t b y hch' (le_of_not_lt hyb)
        linarith
      · rw [if_neg hxb, if_neg hyb]
        exact ih b hch' (le_of_not_lt hxb)

lemma interpList_mono (L : List (ℚ × ℚ)) (x y : ℚ)
    (hch : List.Chain' nodeLe L) (hxy : x ≤ y) :
    interpList x L ≤ interpList y L := by
  cases L with
  | nil => exact le_refl _
  | cons a rest =>
    have hch2 : List.Chain nodeLe a rest := hch
    rw [interpList, interpList]
    by_cases hxa : x < a.1
    · rw [if_pos hxa]
      by_cases hya : y < a.1
      · rw [if_pos hya]
      · rw [if_neg hya]
        exact interpGo_lb rest a y hch2 (le_of_not_lt hya)
    · rw [if_neg hxa, if_neg (fun hya => hxa (lt_of_le_of_lt hxy hya))]
      exact interpGo_mono rest a x y hch2 (le_of_not_lt hxa) hxy

lemma interpGo_run_right (rest : List (ℚ × ℚ)) (a : ℚ × ℚ) (y : ℚ)
    (h : ∀ p ∈ rest, p.1 ≤ y) :
    interpGo y rest a = (rest.map Prod.snd).getLastD a.2 := by
  induction rest generalizing a with
  | nil => rfl
  | cons b t ih =>
    have hb : b.1 ≤ y := h b (by simp)
    rw [interpGo, if_neg (not_lt.mpr hb), List.map_cons, List.getLastD_cons]
    exact ih b (fun p hp => h p (by simp [hp]))

lemma interpList_zero_head (f0 : ℚ) (rest : List (ℚ × ℚ))
    (h : ∀ p ∈ rest, 0 < p.1) : interpList 0 ((0, f0) :: rest) = f0 := by
  cases rest with
  | nil => simp [interpList, interpGo]
  | cons b t =>
    have hb : 0 < b.1 := h b (by simp)
    rw [interpList, if_neg (lt_irrefl 0), interpGo, if_pos hb]
    simp

lemma pairwise_zip {l1 l2 : List ℚ} (h1 : List.Pairwise (· ≤ ·) l1)
    (h2 : List.Pairwise (· ≤ ·) l2) : List.Pairwise nodeLe (l1.zip l2) := by
  induction l1 generalizing l2 with
  | nil => simp
  | cons a t1 ih =>
    cases l2 with
    | nil => simp
    | cons b t2 =>
      rcases List.pairwise_cons.mp h1 with ⟨ha, h1'⟩
      rcases List.pairwise_cons.mp h2 with ⟨hb, h2'⟩
      rw [List.zip_cons_cons]
      refine List.pairwise_cons.mpr ⟨?_, ih h1' h2'⟩
      rintro ⟨x, y⟩ hxy
      rcases List.of_mem_zip hxy with ⟨hx, hy⟩
      exact ⟨ha x hx, hb y hy⟩

lemma normalizeWith_pairwise {pos : List ℚ} (hpos : List.Pairwise (· ≤ ·) pos)
    (h0 : ∀ x ∈ pos, 0 ≤ x) : List.Pairwise (· ≤ ·) (normalizeWith pos) := by
  cases pos with
  | nil => simp [normalizeWith]
  | cons p ps =>
    have hmx : 0 ≤ ps.foldl max p := le_trans (h0 p (by simp)) (le_foldl_max p ps)
    rw [normalizeWith]
    refine List.Pairwise.map _ ?_ hpos
    intro a b hab
    rcases eq_or_lt_of_le hmx with h | h
    · rw [← h, div_zero, div_zero]
    · exact (div_le_div_iff_of_pos_right h).mpr (sub_le_sub_right hab _)

lemma normalizeWith_le_one {pos : List ℚ} (h0 : ∀ x ∈ pos, 0 ≤ x) :
    ∀ x ∈ normalizeWith pos, x ≤ 1 := by
  cases pos with
  | nil => simp [normalizeWith]
  | cons p ps =>
    rw [normalizeWith]
    intro x hx
    obtain ⟨y, hy, rfl⟩ := List.mem_map.mp hx
    have hymax : y ≤ ps.foldl max p := by
      rcases List.mem_cons.mp hy with rfl | h
      · exact le_foldl_max _ _
      · exact le_foldl_max_of_mem _ h
    have hmn : 0 ≤ ps.foldl min p := by
      rcases foldl_min_mem_or p ps with h | h
      · rw [h]; exact h0 p (by simp)
      · exact h0 _ (by simp [h])
    rcases lt_or_eq_of_le (le_trans (h0 p (by simp)) (le_foldl_max p ps)) with h | h
    · exact (div_le_one h).mpr (by linarith)
    · rw [← h, div_zero]
      exact zero_le_one

lemma normalizeWith_head {p : ℚ} {ps : List ℚ} (hle : ∀ x ∈ ps, p ≤ x) :
    normalizeWith (p :: ps) =
      0 :: ps.map (fun x => (x - p) / ps.foldl max p) := by
  rw [normalizeWith, foldl_min_eq_self p ps hle, List.map_cons, sub_self, zero_div]

lemma head_eq_listMin {v0 : ℚ} {t l : List ℚ} (hperm : (v0 :: t).Perm l)
    (hsort : List.Pairwise (· ≤ ·) (v0 :: t)) : v0 = listMin l := by
  have hne : l ≠ [] := by
    intro h
    rw [h] at hperm
    exact List.cons_ne_nil v0 t hperm.eq_nil
  have h1 : listMin l ≤ v0 := listMin_le (hperm.subset (by simp))
  have h2 : v0 ≤ listMin l := by
    have hmem : listMin l ∈ v0 :: t := hperm.symm.subset (listMin_mem hne)
    rcases List.mem_cons.mp hmem with h | h
    · exact le_of_eq h.symm
    · exact (List.pairwise_cons.mp hsort).1 _ h
  exact le_antisymm h2 h1

lemma pairwise_le_getLastD {v0 : ℚ} {t : List ℚ}
    (hsort : List.Pairwise (· ≤ ·) (v0 :: t)) :
    ∀ x ∈ v0 :: t, x ≤ t.getLastD v0 := by
  induction t generalizing v0 with
  | nil =>
    intro x hx
    simp only [List.mem_singleton] at hx
    simp [hx]
  | cons b t' ih =>
    intro x hx
    rw [List.getLastD_cons]
    rcases List.pairwise_cons.mp hsort with ⟨hv0, hst⟩
    rcases List.mem_cons.mp hx with rfl | h
    · exact le_trans (hv0 b (by simp)) (ih hst b (by simp))
    · exact ih hst x h

lemma getLastD_eq_listMax {v0 : ℚ} {t l : List ℚ} (hperm : (v0 :: t).Perm l)
    (hsort : List.Pairwise (· ≤ ·) (v0 :: t)) : t.getLastD v0 = listMax l := by
  have hne : l ≠ [] := by
    intro h
    rw [h] at hperm
    exact List.cons_ne_nil v0 t hperm.eq_nil
  have h1 : t.getLastD v0 ≤ listMax l :=
    le_listMax (hperm.subset (List.getLastD_mem_cons t v0))
  have h2 : listMax l ≤ t.getLastD v0 :=
    pairwise_le_getLastD hsort _ (hperm.symm.subset (listMax_mem hne))
  exact le_antisymm h1 h2

lemma normalizedPositions_pairwise (values w : List ℚ) (hw : ∀ x ∈ w, 0 ≤ x) :
    List.Pairwise (· ≤ ·) (normalizedPositions values w) := by
  have hsw : ∀ x ∈ sortedWeights values w, 0 ≤ x :=
    fun x hx => hw x (mem_of_mem_sortedWeights hx)
  have hpair : List.Pairwise (· ≤ ·) (positions values w) := by
    rw [positions_eq_posFrom]
    exact posFrom_pairwise 0 _ hsw
  have h0 : ∀ x ∈ positions values w, 0 ≤ x := by
    rw [positions_eq_posFrom]
    exact fun x hx => le_of_mem_posFrom hsw hx
  exact normalizeWith_pairwise hpair h0

lemma interp_nodes_chain (values w : List ℚ) (hw : ∀ x ∈ w, 0 ≤ x) :
    List.Chain' nodeLe
      ((normalizedPositions values w).zip (sortedValues values w)) :=
  (pairwise_zip (normalizedPositions_pairwise values w hw)
    (sortedValues_pairwise values w)).chain'

/-- **C1** (code bug): at `values = [10, 20]`, `weights = [1, 1]` the code's
x-coordinate array is `[0, 2/3]` — the code divides by the maximum taken
*before* the subtraction — while the normalization stated by the claim (and by
the code's own comment `Cast weighted quantiles to 0-1`) yields `[0, 1]`; the
two disagree, so the computed array does not span `[0, 1]`. -/
theorem C1_normalization_divergence :
    normalizedPositions [10, 20] [1, 1] = [0, 2/3] ∧
    specNormalizedPositions [10, 20] [1, 1] = [0, 1] ∧
    normalizedPositions [10, 20] [1, 1] ≠ specNormalizedPositions [10, 20] [1, 1] := by
  norm_num [normalizedPositions, specNormalizedPositions, normalizeWith,
    specNormalizeWith, positions, sortedWeights, sortPairs, List.insertionSort,
    List.orderedInsert, pairLe, cumsum, cumsumFrom]

/-- **C2** (code bug): with weights omitted, `S = [10, 20]`, `q = 1/2`, the
estimator returns `17.5`, but the standard linear-interpolation percentile of
`S` at quantile 50 is `15`; the claimed unweighted equivalence fails (a
consequence of the C1 normalization slip, despite the code's comment
`To be consistent with np.quantile`). -/
theorem C2_unweighted_divergence :
    weighted_quantile [10, 20] [1/2] none = .ok [35/2] ∧
    linearQuantile [10, 20] (1/2) = 15 ∧ (35/2 : ℚ) ≠ 15 := by
  norm_num [weighted_quantile, normalizedPositions, normalizeWith, positions,
    sortedWeights, sortedValues, sortPairs, List.insertionSort,
    List.orderedInsert, pairLe, cumsum, cumsumFrom, interpList, interpGo,
    linearQuantile, List.range_succ]

/-- **C3** (counterexample): for `S = [10, 20, 30]` with the non-degenerate
weights `[0, 0, 1]` (one strictly positive entry), the estimator at quantile
`0.0` returns `20`, not `min(S) = 10`: the two zero weights tie the first two
normalized positions at `0`, and `np.interp` resolves the tie to the *last*
node at `0`. -/
theorem C3_counterexample :
    weighted_quantile [10, 20, 30] [0] (some [0, 0, 1]) = .ok [20] ∧
    listMin [10, 20, 30] = 10 ∧ (20 : ℚ) ≠ 10 := by
  norm_num [weighted_quantile, normalizedPositions, normalizeWith, positions,
    sortedWeights, sortedValues, sortPairs, List.insertionSort,
    List.orderedInsert, pairLe, cumsum, cumsumFrom, interpList, interpGo, listMin]

lemma weighted_quantile_ok (values quantiles w : List ℚ)
    (hq : ∀ q ∈ quantiles, 0 ≤ q ∧ q ≤ 1) (hne : values ≠ [])
    (hlen : values.length ≤ w.length) :
    weighted_quantile values quantiles (some w) =
      .ok (quantiles.map (fun q =>
        interpList q ((normalizedPositions values w).zip (sortedValues values w)))) := by
  unfold weighted_quantile
  simp only [Option.getD_some]
  rw [if_pos hq, if_neg (not_lt.mpr hlen),
    if_neg (fun h => hne (List.length_eq_zero.mp h))]

/-- **C3** (amended): quantile `0.0` returns `min(S)` and quantile `1.0`
returns `max(S)` for every non-empty sample list and every aligned weight list
whose entries are *all strictly positive* (the original claim, which asked this
for any weight set with merely one positive entry, fails: see
`C3_counterexample`, where zero weights tie normalized positions at `0`). -/
theorem C3_amended_boundary (values w : List ℚ) (hne : values ≠ [])
    (hlen : w.length = values.length) (hw : ∀ x ∈ w, 0 < x) :
    weighted_quantile values [0] (some w) = .ok [listMin values] ∧
    weighted_quantile values [1] (some w) = .ok [listMax values] := by
  have hlen' : values.length ≤ w.length := le_of_eq hlen.symm
  obtain ⟨pr, P2, hP⟩ : ∃ pr P2, sortPairs values w = pr :: P2 := by
    cases hsp : sortPairs values w with
    | nil =>
      exfalso
      have h0 := sortPairs_length values w
      rw [hsp, hlen, min_self] at h0
      simp only [List.length_nil] at h0
      exact hne (List.length_eq_zero.mp h0.symm)
    | cons a l => exact ⟨a, l, rfl⟩
  have hsv : sortedValues values w = pr.1 :: P2.map Prod.fst := by
    rw [sortedValues, hP, List.map_cons]
  have hsw : sortedWeights values w = pr.2 :: P2.map Prod.snd := by
    rw [sortedWeights, hP, List.map_cons]
  have hswpos : ∀ x ∈ sortedWeights values w, 0 < x :=
    fun x hx => hw x (mem_of_mem_sortedWeights hx)
  have hpr2 : 0 < pr.2 := hswpos pr.2 (by rw [hsw]; exact List.mem_cons_self _ _)
  have hsw2nn : ∀ x ∈ P2.map Prod.snd, (0 : ℚ) ≤ x := fun x hx =>
    le_of_lt (hswpos x (by rw [hsw]; exact List.mem_cons_of_mem _ hx))
  have hpos : positions values w = pr.2 / 2 :: posFrom pr.2 (P2.map Prod.snd) := by
    rw [positions_eq_posFrom, hsw, posFrom, zero_add, zero_add]
  have hps_ge : ∀ x ∈ posFrom pr.2 (P2.map Prod.snd), pr.2 ≤ x :=
    fun x hx => le_of_mem_posFrom hsw2nn hx
  have hhead_le : ∀ x ∈ posFrom pr.2 (P2.map Prod.snd), pr.2 / 2 ≤ x := by
    intro x hx
    have := hps_ge x hx
    linarith
  have hmx : 0 < (posFrom pr.2 (P2.map Prod.snd)).foldl max (pr.2 / 2) :=
    lt_of_lt_of_le (by linarith) (le_foldl_max _ _)
  have hN : normalizedPositions values w =
      0 :: (posFrom pr.2 (P2.map Prod.snd)).map
        (fun x => (x - pr.2 / 2) /
          (posFrom pr.2 (P2.map Prod.snd)).foldl max (pr.2 / 2)) := by
    rw [normalizedPositions, hpos, normalizeWith_head hhead_le]
  have hsort : List.Pairwise (· ≤ ·) (pr.1 :: P2.map Prod.fst) := by
    rw [← hsv]
    exact sortedValues_pairwise values w
  have hperm : (pr.1 :: P2.map Prod.fst).Perm values := by
    rw [← hsv]
    exact sortedValues_perm values w hlen'
  have hposnn : ∀ x ∈ positions values w, (0 : ℚ) ≤ x := by
    rw [positions_eq_posFrom]
    exact fun x hx => le_of_mem_posFrom (fun y hy => le_of_lt (hswpos y hy)) hx
  have hle1 : ∀ x ∈ normalizedPositions values w, x ≤ 1 := by
    rw [normalizedPositions]
    exact normalizeWith_le_one hposnn
  have hlen2 : (P2.map Prod.fst).length ≤
      ((posFrom pr.2 (P2.map Prod.snd)).map
        (fun x => (x - pr.2 / 2) /
          (posFrom pr.2 (P2.map Prod.snd)).foldl max (pr.2 / 2))).length := by
    rw [List.length_map, List.length_map, posFrom_length, List.length_map]
  constructor
  · rw [weighted_quantile_ok values [0] w (by norm_num) hne hlen']
    simp only [List.map_cons, List.map_nil]
    rw [hN, hsv, List.zip_cons_cons]
    have hside : ∀ p ∈ ((posFrom pr.2 (P2.map Prod.snd)).map
        (fun x => (x - pr.2 / 2) /
          (posFrom pr.2 (P2.map Prod.snd)).foldl max (pr.2 / 2))).zip
        (P2.map Prod.fst), 0 < p.1 := by
      rintro ⟨x, y⟩ hp
      obtain ⟨z, hz, hzx⟩ := List.mem_map.mp (List.of_mem_zip hp).1
      have h1 := hps_ge z hz
      rw [← hzx]
      exact div_pos (by linarith) hmx
    rw [interpList_zero_head pr.1 _ hside, head_eq_listMin hperm hsort]
  · rw [weighted_quantile_ok values [1] w (by norm_num) hne hlen']
    simp only [List.map_cons, List.map_nil]
    rw [hN, hsv, List.zip_cons_cons, interpList,
      if_neg (by norm_num : ¬ (1 : ℚ) < ((0 : ℚ), pr.1).1)]
    have hcovered : ∀ p ∈ ((posFrom pr.2 (P2.map Prod.snd)).map
        (fun x => (x - pr.2 / 2) /
          (posFrom pr.2 (P2.map Prod.snd)).foldl max (pr.2 / 2))).zip
        (P2.map Prod.fst), p.1 ≤ (1 : ℚ) := by
      rintro ⟨x, y⟩ hp
      apply hle1
      rw [hN]
      exact List.mem_cons_of_mem _ (List.of_mem_zip hp).1
    rw [interpGo_run_right _ _ _ hcovered, List.map_snd_zip _ _ hlen2,
      getLastD_eq_listMax hperm hsort]

/-- Witness for `C3_amended_boundary` at `S = [10, 20]`, weights `[1, 1]`. -/
theorem C3_amended_witness :
    weighted_quantile [10, 20] [0] (some [1, 1]) = .ok [listMin [10, 20]] ∧
    weighted_quantile [10, 20] [1] (some [1, 1]) = .ok [listMax [10, 20]] :=
  C3_amended_boundary [10, 20] [1, 1] (by simp) (by simp) (by norm_num)

/-- **C4**: the estimator fails with the invalid-quantile `ValueError` exactly
when some requested quantile lies outside `[0, 1]`; the check precedes every
other computation, and on failure nothing but the error is produced
(all-or-nothing by the `Except` result type). -/
theorem C4_invalid_quantile_iff (values quantiles : List ℚ)
    (weights : Option (List ℚ)) :
    weighted_quantile values quantiles weights = .error .invalidQuantile ↔
      ¬ ∀ q ∈ quantiles, 0 ≤ q ∧ q ≤ 1 := by
  unfold weighted_quantile
  by_cases h : ∀ q ∈ quantiles, 0 ≤ q ∧ q ≤ 1
  · rw [if_pos h]
    constructor
    · intro heq
      exfalso
      revert heq
      split_ifs <;> simp
    · intro hn
      exact absurd h hn
  · rw [if_neg h]
    simp [h]

/-- **C5** (counterexample): with every weight zero, the estimator raises no
error at all — the call succeeds (the only validation in the code is the
quantile-range check), in the real code returning NaN garbage from the `0/0`
normalization rather than failing with a degenerate-weights error. -/
theorem C5_counterexample :
    (weighted_quantile [1, 2] [1/2] (some [0, 0])).isOk = true := by
  norm_num [weighted_quantile, normalizedPositions, normalizeWith, positions,
    sortedWeights, sortedValues, sortPairs, List.insertionSort,
    List.orderedInsert, pairLe, cumsum, cumsumFrom, interpList, interpGo,
    Except.isOk, Except.toBool]

/-- **C5** (amended): the code performs no weight validation: for every
non-empty sample list and in-range quantile list, the call with all-zero
weights returns successfully (no `DegenerateWeights`-style failure; the real
code propagates NaN from the zero division instead). -/
theorem C5_amended_no_weight_validation (values quantiles : List ℚ)
    (hne : values ≠ []) (hq : ∀ q ∈ quantiles, 0 ≤ q ∧ q ≤ 1) :
    (weighted_quantile values quantiles
        (some (List.replicate values.length 0))).isOk = true := by
  unfold weighted_quantile
  rw [if_pos hq]
  simp [List.length_eq_zero, hne, Except.isOk, Except.toBool]

/-- Witness for `C5_amended_no_weight_validation` at `S = [1, 2]`, `Q = [1/2]`. -/
theorem C5_amended_witness :
    ([1, 2] : List ℚ) ≠ [] ∧
    (weighted_quantile [1, 2] [1/2]
        (some (List.replicate (List.length ([1, 2] : List ℚ)) 0))).isOk = true :=
  ⟨by simp, C5_amended_no_weight_validation [1, 2] [1/2] (by simp) (by norm_num)⟩

/-- **C6** (counterexample): a weights list *longer* than the samples does not
fail at all: the extra weights are silently dropped by the `weights[idx]`
indexing and a result is returned, contradicting the claimed
length-mismatch failure in either direction. -/
theorem C6_counterexample :
    weighted_quantile [1, 2] [1/2] (some [1, 1, 1]) = .ok [7/4] := by
  norm_num [weighted_quantile, normalizedPositions, normalizeWith, positions,
    sortedWeights, sortedValues, sortPairs, List.insertionSort,
    List.orderedInsert, pairLe, cumsum, cumsumFrom, interpList, interpGo]

/-- **C6** (amended): the code performs no length validation. A weights list
shorter than the samples fails with the numpy `IndexError` raised by
`weights[idx]` — after `np.argsort`, not before sorting — while a longer
weights list raises nothing and returns a result computed from the first
`len(values)` weights. -/
theorem C6_amended_no_length_validation (values quantiles w : List ℚ)
    (hq : ∀ q ∈ quantiles, 0 ≤ q ∧ q ≤ 1) (hne : values ≠ []) :
    (w.length < values.length →
        weighted_quantile values quantiles (some w) = .error .indexError) ∧
    (values.length ≤ w.length →
        (weighted_quantile values quantiles (some w)).isOk = true) := by
  constructor
  · intro hlt
    unfold weighted_quantile
    rw [if_pos hq]
    simp [hlt]
  · intro hle
    unfold weighted_quantile
    rw [if_pos hq]
    simp [not_lt.mpr hle, List.length_eq_zero, hne, Except.isOk, Except.toBool]

/-- Witness for `C6_amended_no_length_validation` with one weight for two
samples. -/
theorem C6_amended_witness :
    (List.length [(5 : ℚ)] < List.length ([1, 2] : List ℚ) →
        weighted_quantile [1, 2] [1/2] (some [5]) = .error .indexError) ∧
    (List.length ([1, 2] : List ℚ) ≤ List.length [(5 : ℚ)] →
        (weighted_quantile [1, 2] [1/2] (some [5])).isOk = true) :=
  C6_amended_no_length_validation [1, 2] [1/2] [5] (by norm_num) (by simp)

/-- **C7**: for a fixed sample list and nonnegative weight list, the estimator
is monotone in the requested quantile: whenever a call for `[q1, q2]` with
`q1 < q2` succeeds with results `[r1, r2]`, then `r1 ≤ r2`. -/
theorem C7_quantile_monotonicity (values w : List ℚ) (q1 q2 r1 r2 : ℚ)
    (hw : ∀ x ∈ w, 0 ≤ x) (h12 : q1 < q2)
    (h : weighted_quantile values [q1, q2] (some w) = .ok [r1, r2]) :
    r1 ≤ r2 := by
  unfold weighted_quantile at h
  simp only [Option.getD_some] at h
  by_cases hq : ∀ q ∈ [q1, q2], 0 ≤ q ∧ q ≤ 1
  · rw [if_pos hq] at h
    split_ifs at h <;> simp at h
    obtain ⟨h1, h2⟩ := h
    rw [← h1, ← h2]
    exact interpList_mono _ q1 q2 (interp_nodes_chain values w hw) (le_of_lt h12)
  · rw [if_neg hq] at h
    simp at h

/-- Witness for `C7_quantile_monotonicity`: quartiles of `[10, 20, 30]` with
weights `[1, 1, 2]`. -/
theorem C7_witness :
    weighted_quantile [10, 20, 30] [1/4, 3/4] (some [1, 1, 2]) =
        .ok [35/2, 85/3] ∧
      (35/2 : ℚ) ≤ 85/3 := by
  have hres : weighted_quantile [10, 20, 30] [1/4, 3/4] (some [1, 1, 2]) =
      .ok [35/2, 85/3] := by
    norm_num [weighted_quantile, normalizedPositions, normalizeWith, positions,
      sortedWeights, sortedValues, sortPairs, List.insertionSort,
      List.orderedInsert, pairLe, cumsum, cumsumFrom, interpList, interpGo]
  exact ⟨hres, C7_quantile_monotonicity [10, 20, 30] [1, 1, 2] (1/4) (3/4)
    (35/2) (85/3) (by norm_num) (by norm_num) hres⟩

lemma zip_replicate_self (l : List ℚ) (c : ℚ) :
    l.zip (List.replicate l.length c) = l.map (fun v => (v, c)) := by
  induction l with
  | nil => rfl
  | cons x xs ih =>
    simp only [List.length_cons, List.replicate_succ, List.zip_cons_cons, ih,
      List.map_cons]

lemma orderedInsert_pair_map (c v : ℚ) (l : List ℚ) :
    List.orderedInsert pairLe (v, c) (l.map (fun x => (x, c))) =
      (List.orderedInsert (fun a b : ℚ => a ≤ b) v l).map (fun x => (x, c)) := by
  induction l with
  | nil => rfl
  | cons b t ih =>
    simp only [List.map_cons, List.orderedInsert]
    by_cases h : v ≤ b
    · rw [if_pos (show pairLe (v, c) (b, c) from h), if_pos h, List.map_cons,
        List.map_cons]
    · rw [if_neg (show ¬ pairLe (v, c) (b, c) from h), if_neg h, List.map_cons, ih]

lemma insertionSort_pair_map (c : ℚ) (l : List ℚ) :
    List.insertionSort pairLe (l.map (fun x => (x, c))) =
      (List.insertionSort (fun a b : ℚ => a ≤ b) l).map (fun x => (x, c)) := by
  induction l with
  | nil => rfl
  | cons b t ih =>
    simp only [List.map_cons, List.insertionSort, ih, orderedInsert_pair_map]

lemma sortPairs_replicate (values : List ℚ) (c : ℚ) :
    sortPairs values (List.replicate values.length c) =
      (List.insertionSort (fun a b : ℚ => a ≤ b) values).map (fun x => (x, c)) := by
  rw [sortPairs, zip_replicate_self, insertionSort_pair_map]

lemma sortedValues_replicate (values : List ℚ) (c : ℚ) :
    sortedValues values (List.replicate values.length c) =
      List.insertionSort (fun a b : ℚ => a ≤ b) values := by
  rw [sortedValues, sortPairs_replicate, List.map_map]
  simp [Function.comp_def]

lemma sortedWeights_replicate (values : List ℚ) (c : ℚ) :
    sortedWeights values (List.replicate values.length c) =
      List.replicate values.length c := by
  rw [sortedWeights, sortPairs_replicate, List.map_map]
  simp [Function.comp_def, List.map_const', List.length_insertionSort]

lemma posFrom_scale (c acc : ℚ) (ws : List ℚ) :
    posFrom (c * acc) (ws.map (fun x => c * x)) =
      (posFrom acc ws).map (fun x => c * x) := by
  induction ws generalizing acc with
  | nil => rfl
  | cons x xs ih =>
    simp only [List.map_cons, posFrom]
    rw [(by ring : c * acc + c * x = c * (acc + x)), ih]
    congr 1
    ring

lemma foldl_min_scale (c a : ℚ) (hc : 0 ≤ c) (l : List ℚ) :
    (l.map (fun x => c * x)).foldl min (c * a) = c * l.foldl min a := by
  induction l generalizing a with
  | nil => rfl
  | cons b t ih =>
    simp only [List.map_cons, List.foldl_cons]
    have hmin : min (c * a) (c * b) = c * min a b := by
      rcases le_total a b with h | h
      · rw [min_eq_left h, min_eq_left (mul_le_mul_of_nonneg_left h hc)]
      · rw [min_eq_right h, min_eq_right (mul_le_mul_of_nonneg_left h hc)]
    rw [hmin, ih]

lemma foldl_max_scale (c a : ℚ) (hc : 0 ≤ c) (l : List ℚ) :
    (l.map (fun x => c * x)).foldl max (c * a) = c * l.foldl max a := by
  induction l generalizing a with
  | nil => rfl
  | cons b t ih =>
    simp only [List.map_cons, List.foldl_cons]
    have hmax : max (c * a) (c * b) = c * max a b := by
      rcases le_total a b with h | h
      · rw [max_eq_right h, max_eq_right (mul_le_mul_of_nonneg_left h hc)]
      · rw [max_eq_left h, max_eq_left (mul_le_mul_of_nonneg_left h hc)]
    rw [hmax, ih]

lemma normalizeWith_scale (c : ℚ) (hc : 0 < c) (l : List ℚ) :
    normalizeWith (l.map (fun x => c * x)) = normalizeWith l := by
  cases l with
  | nil => rfl
  | cons p ps =>
    simp only [List.map_cons, normalizeWith]
    rw [foldl_min_scale c p hc.le ps, foldl_max_scale c p hc.le ps, List.map_map]
    congr 1
    · rw [← mul_sub, mul_div_mul_left _ _ (ne_of_gt hc)]
    · refine List.map_congr_left ?_
      intro x _
      simp only [Function.comp_apply]
      rw [← mul_sub, mul_div_mul_left _ _ (ne_of_gt hc)]

lemma positions_replicate (values : List ℚ) (c : ℚ) :
    positions values (List.replicate values.length c) =
      (positions values (List.replicate values.length 1)).map (fun x => c * x) := by
  rw [positions_eq_posFrom, positions_eq_posFrom, sortedWeights_replicate,
    sortedWeights_replicate]
  have h := posFrom_scale c 0 (List.replicate values.length 1)
  simp only [mul_zero, List.map_replicate, mul_one] at h
  rw [h]

lemma normalizedPositions_replicate (values : List ℚ) (c : ℚ) (hc : 0 < c) :
    normalizedPositions values (List.replicate values.length c) =
      normalizedPositions values (List.replicate values.length 1) := by
  rw [normalizedPositions, normalizedPositions, positions_replicate,
    normalizeWith_scale c hc]

/-- **C8**: weighting every sample with the same positive constant `c` gives
exactly the same call result as omitting the weights (which the code replaces
by all-ones): the constant scales the positions, their minimum and their
maximum alike, and cancels in the normalization. -/
theorem C8_uniform_weight_invariance (values quantiles : List ℚ) (c : ℚ)
    (hc : 0 < c) :
    weighted_quantile values quantiles (some (List.replicate values.length c)) =
      weighted_quantile values quantiles none := by
  unfold weighted_quantile
  simp only [Option.getD_some, Option.getD_none, List.length_replicate]
  rw [normalizedPositions_replicate values c hc, sortedValues_replicate values c,
    sortedValues_replicate values 1]

/-- Witness for `C8_uniform_weight_invariance` with `c = 3` on `S = [10, 20]`. -/
theorem C8_witness :
    (0 : ℚ) < 3 ∧
      weighted_quantile [10, 20] [1/2]
          (some (List.replicate (List.length ([10, 20] : List ℚ)) 3)) =
        weighted_quantile [10, 20] [1/2] none :=
  ⟨by norm_num, C8_uniform_weight_invariance [10, 20] [1/2] 3 (by norm_num)⟩

/-- **C10**: a single sample with a strictly positive weight never fails: the
normalized position array collapses to `[0]` (the divisor `max_val = w/2` is
nonzero, so no NaN arises), and every in-range quantile returns that sample. -/
theorem C10_single_sample (v w0 q : ℚ) (hw : 0 < w0) (h0 : 0 ≤ q) (h1 : q ≤ 1) :
    weighted_quantile [v] [q] (some [w0]) = .ok [v] ∧
    normalizedPositions [v] [w0] = [0] := by
  have hnorm : normalizedPositions [v] [w0] = [0] := by
    simp [normalizedPositions, normalizeWith, positions, sortedWeights,
      sortPairs, List.insertionSort, List.orderedInsert, cumsum, cumsumFrom]
  refine ⟨?_, hnorm⟩
  unfold weighted_quantile
  rw [if_pos (by simpa using ⟨h0, h1⟩)]
  simp [hnorm, sortedValues, sortPairs, List.insertionSort, List.orderedInsert,
    interpList, interpGo]

/-- Witness for `C10_single_sample` at `v = 5`, `w = 1`, `q = 1/2`. -/
theorem C10_witness :
    (0 : ℚ) < 1 ∧
      (weighted_quantile [5] [1/2] (some [1]) = .ok [5] ∧
        normalizedPositions [5] [1] = [0]) :=
  ⟨by norm_num, C10_single_sample 5 1 (1/2) (by norm_num) (by norm_num) (by norm_num)⟩

end WeightedTemperatureGraph
